import Mathlib

/-!
Verification of the `spirefy/go-plugin-engine` WebAssembly plugin engine
(`engine.go`, `hostfuncs.go`, `types/`).

The Go code is shallowly embedded: the engine's mutable registry becomes an
explicit `EngineState`; Go maps become association lists with the map's
lookup/insert semantics; Go pointers to `extension` and `plugin` records
(which are mutated through aliases held by several indices) become indices
into explicit heaps (`extHeap`, `plugHeap`); the extism/wazero sandbox is an
abstract `Sandbox` oracle.  Byte slices are `List Nat`.  Statement-level
claims are proved about these definitions.
-/

namespace PluginEngine

/-! ## Association lists modelling Go maps (lookup / insert / in-place modify) -/

/-- Go map read `m[k]`: `none` models the zero value (nil slice / nil pointer). -/
def goLookup {α : Type} : List (String × α) → String → Option α
  | [], _ => none
  | (k', v) :: rest, k => if k' = k then some v else goLookup rest k

/-- Go map write `m[k] = v`: overwrites the binding for `k` or appends one. -/
def goInsert {α : Type} : List (String × α) → String → α → List (String × α)
  | [], k, v => [(k, v)]
  | (k', v') :: rest, k, v =>
    if k' = k then (k, v) :: rest else (k', v') :: goInsert rest k v

/-- Applies `f` to the value bound at `k`, leaving other bindings alone.
Models an in-place mutation made through a pointer stored in the map. -/
def modifyAssoc {α : Type} : List (String × α) → String → (α → α) → List (String × α)
  | [], _, _ => []
  | (k', v) :: rest, k, f =>
    if k' = k then (k', f v) :: rest else (k', v) :: modifyAssoc rest k f

/-- In-place update of the `i`-th cell of a heap (mutation through a Go pointer). -/
def listModify {α : Type} : List α → Nat → (α → α) → List α
  | [], _, _ => []
  | a :: rest, 0, f => f a :: rest
  | a :: rest, n + 1, f => a :: listModify rest n f

/-! ## Data model

`go-pdk` manifest types (`gopdk.Plugin`, `gopdk.ExtensionPoint`,
`gopdk.Extension`), with the string fields the engine reads.  Schema /
metadata payloads are never inspected by the embedded operations and are
omitted. -/

structure PExtension where
  Id : String
  ExtensionPoint : String
  Name : String
  Description : String
  FuncName : String
deriving Repr, DecidableEq

structure PExtensionPoint where
  Id : String
  Name : String
  Description : String
  Version : String
deriving Repr, DecidableEq

structure PluginManifest where
  Id : String
  Name : String
  Version : String
  Description : String
  LoadOnStart : Bool
  ExtensionPoints : List PExtensionPoint
  Extensions : List PExtension
deriving Repr, DecidableEq

/-- The engine's `plugin` record (`engine.go`): `Plugin *extism.Plugin` is an
optional sandbox-instance id, mutated in place through pointers shared by
`plugins` and `callableExtensions`. -/
structure PluginVal where
  PluginInst : Option Nat
  PathToModule : String
  Resolved : Bool
  LoadOnStart : Bool
deriving Repr, DecidableEq

instance : Inhabited PluginVal := ⟨⟨none, "", false, false⟩⟩

/-- The engine's `extension` record; `Plugin plugin` is a by-value copy
(`Plugin: *p` dereferences), `Resolved` is mutated through shared pointers,
so cells live in `extHeap` and are referenced by index. -/
structure ExtCell where
  e : PExtension
  Plugin : PluginVal
  Resolved : Bool
deriving Repr, DecidableEq

/-- The engine's `extensionPoint` record.  Each cell is referenced from
exactly one slot of `extensionPoints`, so it is stored inline there;
`Extensions` holds indices into `extHeap`. -/
structure EPCell where
  ep : PExtensionPoint
  Extensions : List Nat
  Plugin : PluginVal
deriving Repr, DecidableEq

/-- The engine's registry (fields of `Engine` plus the package-level
`callableExtensions` map, which is global in Go but engine-scoped here). -/
structure EngineState where
  plugHeap : List PluginVal
  extHeap : List ExtCell
  plugins : List (String × List (String × Nat))
  extensionPoints : List (String × List EPCell)
  extensions : List (String × Nat)
  unresolved : List Nat
  callableExtensions : List (String × Nat)
deriving Repr, DecidableEq

/-- `plugins[id][version]` double lookup. -/
def goLookup2 (m : List (String × List (String × Nat))) (k1 k2 : String) : Option Nat :=
  (goLookup m k1).bind fun inner => goLookup inner k2

/-- `NewPluginEngine`: empty registry (directory creation is I/O, out of model). -/
def newPluginEngine : EngineState :=
  { plugHeap := [], extHeap := [], plugins := [], extensionPoints := []
    extensions := [], unresolved := [], callableExtensions := [] }

/-! ## Semver validation (`isSemverValid` / `isValidNumber`, engine.go) -/

/-- `strings.Split` on a single-character separator. -/
def splitOnSep (sep : Char) : List Char → List (List Char)
  | [] => [[]]
  | c :: rest =>
    if c = sep then [] :: splitOnSep sep rest
    else
      match splitOnSep sep rest with
      | [] => [[c]]
      | p :: ps => (c :: p) :: ps

/-- Decimal-digit code points beyond Latin-1 (Unicode category Nd), as in the
range tables consulted by Go's `unicode.IsDigit` for runes above `MaxLatin1`. -/
def ndRanges : List (Nat × Nat) :=
  [(0x660, 0x669), (0x6F0, 0x6F9), (0x7C0, 0x7C9), (0x966, 0x96F),
   (0x9E6, 0x9EF), (0xA66, 0xA6F), (0xAE6, 0xAEF), (0xB66, 0xB6F),
   (0xBE6, 0xBEF), (0xC66, 0xC6F), (0xCE6, 0xCEF), (0xD66, 0xD6F),
   (0xDE6, 0xDEF), (0xE50, 0xE59), (0xED0, 0xED9), (0xF20, 0xF29),
   (0x1040, 0x1049), (0x1090, 0x1099), (0x17E0, 0x17E9), (0x1810, 0x1819),
   (0x1946, 0x194F), (0x19D0, 0x19D9), (0x1A80, 0x1A89), (0x1A90, 0x1A99),
   (0x1B50, 0x1B59), (0x1BB0, 0x1BB9), (0x1C40, 0x1C49), (0x1C50, 0x1C59),
   (0xA620, 0xA629), (0xA8D0, 0xA8D9), (0xA900, 0xA909), (0xA9D0, 0xA9D9),
   (0xA9F0, 0xA9F9), (0xAA50, 0xAA59), (0xABF0, 0xABF9), (0xFF10, 0xFF19),
   (0x104A0, 0x104A9), (0x10D30, 0x10D39), (0x11066, 0x1106F),
   (0x110F0, 0x110F9), (0x11136, 0x1113F), (0x111D0, 0x111D9),
   (0x112F0, 0x112F9), (0x11450, 0x11459), (0x114D0, 0x114D9),
   (0x11650, 0x11659), (0x116C0, 0x116C9), (0x11730, 0x11739),
   (0x118E0, 0x118E9), (0x11950, 0x11959), (0x11C50, 0x11C59),
   (0x11D50, 0x11D59), (0x11DA0, 0x11DA9), (0x11F50, 0x11F59),
   (0x16A60, 0x16A69), (0x16AC0, 0x16AC9), (0x16B50, 0x16B59),
   (0x1D7CE, 0x1D7FF), (0x1E140, 0x1E149), (0x1E2F0, 0x1E2F9),
   (0x1E4F0, 0x1E4F9), (0x1E950, 0x1E959), (0x1FBF0, 0x1FBF9)]

/-- `unicode.IsDigit`: for runes up to `MaxLatin1` exactly `'0' ≤ r ≤ '9'`,
otherwise a lookup in the Nd range tables excluding Latin-1. -/
def goIsDigit (c : Char) : Bool :=
  if c.toNat ≤ 0xFF then decide ('0' ≤ c ∧ c ≤ '9')
  else ndRanges.any fun r => decide (r.1 ≤ c.toNat ∧ c.toNat ≤ r.2)

/-- `isValidNumber` (engine.go): non-empty, no leading `'-'` byte, all runes
decimal digits. -/
def isValidNumber (s : List Char) : Bool :=
  if s.length = 0 then false
  else if s.head? = some '-' then false
  else s.all goIsDigit

/-- `isSemverValid` (engine.go): split on `"."` into exactly three parts, each
a valid number. -/
def isSemverValid (version : String) : Bool :=
  let parts := splitOnSep '.' version.data
  if parts.length ≠ 3 then false
  else parts.all isValidNumber

/-- The claim's characterization of the validator, written from its words:
exactly two dots, three components, each non-empty, no leading `'-'`, and
containing only the ASCII digits `0`-`9`. -/
def semverClaimedRule (s : String) : Bool :=
  decide (s.data.count '.' = 2) &&
  (splitOnSep '.' s.data).all fun p =>
    decide (p ≠ []) && decide (p.head? ≠ some '-') &&
      p.all fun c => decide ('0' ≤ c ∧ c ≤ '9')

/-! ## The resolver (`Engine.resolve`, engine.go) -/

/-- Appends extension-cell `vref` to the `Extensions` list of the `i`-th
extension point stored under `key` (mutation through the `*extensionPoint`
obtained from the map). -/
def epAppend (st : EngineState) (key : String) (i : Nat) (vref : Nat) : EngineState :=
  { st with extensionPoints :=
      modifyAssoc st.extensionPoints key fun cells =>
        listModify cells i fun c => { c with Extensions := c.Extensions ++ [vref] } }

/-- `v.Resolved = true` through the shared extension pointer. -/
def setExtResolved (st : EngineState) (vref : Nat) : EngineState :=
  { st with extHeap := listModify st.extHeap vref fun c => { c with Resolved := true } }

/-- `e.extensions[id] = v`. -/
def pubExt (st : EngineState) (id : String) (vref : Nat) : EngineState :=
  { st with extensions := goInsert st.extensions id vref }

/-- One iteration of the inner loop of `resolve` over the snapshot `eps` of
the extension points registered under `v.ExtensionPoint` (Go reads the slice
once; `ep.Id` fields are immutable, so comparing against the snapshot is the
source's behaviour).  Matching elements each receive the extension — there
is no break after a match — while mismatching elements push `v` onto
`leftover`. -/
def resolveInner (vc : ExtCell) (vref : Nat) (eps : List EPCell)
    (acc2 : EngineState × List Nat) (i : Nat) : EngineState × List Nat :=
  if (eps[i]?.map fun c => c.ep.Id) = some vc.e.ExtensionPoint then
    (pubExt (setExtResolved (epAppend acc2.1 vc.e.ExtensionPoint i vref) vref) vc.e.Id vref,
      acc2.2)
  else (acc2.1, acc2.2 ++ [vref])

/-- One iteration of the outer loop of `resolve` over `e.unresolved`.  The
accumulator carries the evolving engine state and the `leftover` slice.  A
faithful quirk of the source: when no list is registered under the key, `v`
is *not* retained in `leftover` (that branch only logs). -/
def resolveStep (acc : EngineState × List Nat) (vref : Nat) : EngineState × List Nat :=
  match acc.1.extHeap[vref]? with
  | none => acc
  | some vc =>
    if vc.Resolved then acc
    else
      match goLookup acc.1.extensionPoints vc.e.ExtensionPoint with
      | none => acc
      | some eps =>
        if eps.length = 0 then acc
        else (List.range eps.length).foldl (resolveInner vc vref eps) acc

/-- `Engine.resolve` (engine.go): walks `e.unresolved`, attaches unresolved
extensions to the extension points registered under their key, and replaces
`e.unresolved` with the `leftover` slice. -/
def resolve (st : EngineState) : EngineState :=
  if st.unresolved.length = 0 then st
  else
    let p := st.unresolved.foldl resolveStep (st, [])
    { p.1 with unresolved := p.2 }

/-! ## Registration (`Engine.addPlugin`, `Engine.RegisterHostExtensionPoint`) -/

/-- One iteration of `addPlugin`'s extension loop: constructs a fresh
`extension` cell bound to the owner snapshot, claims the call index entry
only when the id is not already claimed, and appends to `unresolved`. -/
def addPluginExtStep (pref : Nat) (pv : PluginVal) (st : EngineState)
    (ex : PExtension) : EngineState :=
  match goLookup st.callableExtensions ex.Id with
  | some _ =>
    { st with
      extHeap := st.extHeap ++ [{ e := ex, Plugin := pv, Resolved := false }],
      unresolved := st.unresolved ++ [st.extHeap.length] }
  | none =>
    { st with
      extHeap := st.extHeap ++ [{ e := ex, Plugin := pv, Resolved := false }],
      unresolved := st.unresolved ++ [st.extHeap.length],
      callableExtensions := goInsert st.callableExtensions ex.Id pref }

/-- One iteration of `addPlugin`'s extension-point loop: appends a fresh
`extensionPoint` cell under its id. -/
def addPluginEPStep (pv : PluginVal) (st : EngineState) (ep : PExtensionPoint) : EngineState :=
  let cell : EPCell := { ep := ep, Extensions := [], Plugin := pv }
  { st with extensionPoints :=
      goInsert st.extensionPoints ep.Id ((goLookup st.extensionPoints ep.Id).getD [] ++ [cell]) }

/-- `Engine.addPlugin(p *plugin, plug gopdk.Plugin)`: upserts
`plugins[plug.Id][plug.Version]`, sets `p.LoadOnStart`, enqueues one fresh
`extension` cell per declared extension (registering the owner in
`callableExtensions` only when the id is not already claimed), appends one
`extensionPoint` cell per declared extension point, then calls `resolve`. -/
def addPlugin (st : EngineState) (pref : Nat) (plug : PluginManifest) : EngineState :=
  let inner := (goLookup st.plugins plug.Id).getD []
  let st1 := { st with plugins := goInsert st.plugins plug.Id (goInsert inner plug.Version pref) }
  let st2 := { st1 with plugHeap := listModify st1.plugHeap pref fun c => { c with LoadOnStart := plug.LoadOnStart } }
  let pv := (st2.plugHeap[pref]?).getD default
  let st3 := plug.Extensions.foldl (addPluginExtStep pref pv) st2
  let st4 := plug.ExtensionPoints.foldl (addPluginEPStep pv) st3
  resolve st4

/-- The per-manifest admission step of `Engine.loadPluginManifests`: a parsed
manifest yields `plugin{PathToModule: wasm[0], Plugin: nil, Resolved: false}`
and is passed to `addPlugin` — with no version validation of any kind. -/
def admitManifest (st : EngineState) (plug : PluginManifest) (wasmPath : String) : EngineState :=
  let cell : PluginVal := { PluginInst := none, PathToModule := wasmPath, Resolved := false, LoadOnStart := false }
  let pref := st.plugHeap.length
  addPlugin { st with plugHeap := st.plugHeap ++ [cell] } pref plug

/-- `Engine.RegisterHostExtensionPoint`: appends a host-origin extension
point (zero-valued owning plugin) under `id` and calls `resolve`. -/
def RegisterHostExtensionPoint (st : EngineState) (id name version description : String) : EngineState :=
  let cell : EPCell :=
    { ep := { Id := id, Name := name, Description := description, Version := version }
      Extensions := [], Plugin := default }
  let eps := (goLookup st.extensionPoints id).getD []
  resolve { st with extensionPoints := goInsert st.extensionPoints id (eps ++ [cell]) }

/-! ## Sandbox manager and invocation (`Engine.instantiate`, `Engine.CallExtensionFunc`)

The extism/wazero sandbox is abstracted as an oracle: `newPlugin` models
`extism.NewPlugin` (`none` = the creation error branch), `call` models
`(*extism.Plugin).Call` on a live instance.  A Go runtime panic (nil-pointer
dereference) is an explicit outcome, distinct from an ordinary error return. -/

structure Sandbox where
  newPlugin : String → Option Nat
  call : Nat → String → List Nat → Except String (List Nat)

inductive GoOutcome (α : Type) where
  | ok : α → GoOutcome α
  | panicked : String → GoOutcome α
deriving Repr, DecidableEq

/-- `Engine.instantiate` (engine.go): creates the sandbox instance, stores it
in `plugin.Plugin` *whether or not creation failed* (the error is only
logged), then calls `pluginInstance.Call("start", nil)` — a nil-pointer
dereference when creation failed.  The `start` error is only logged; the
function's own error result is always `nil`. -/
def instantiate (sb : Sandbox) (st : EngineState) (pref : Nat) : GoOutcome EngineState :=
  match st.plugHeap[pref]? with
  | none => .panicked "invalid plugin reference"
  | some pc =>
    let inst? := sb.newPlugin pc.PathToModule
    let st1 := { st with plugHeap := listModify st.plugHeap pref fun c => { c with PluginInst := inst? } }
    match inst? with
    | none => .panicked "nil pointer dereference: pluginInstance.Call"
    | some i =>
      let _ := sb.call i "start" []
      .ok st1

/-- `Engine.CallExtensionFunc(extensionId, data)` (engine.go): looks up the
owner in `callableExtensions` — returning `(nil, nil)` when absent — reads
`e.extensions[extensionId]`, lazily instantiates the owner, then calls
`callable.Plugin.Call(extension.Func, data)`; `extension.Func` is a
nil-pointer dereference when the id is not in the resolved map.  Result is
`(state, response bytes, error)`. -/
def CallExtensionFunc (sb : Sandbox) (st : EngineState) (extensionId : String)
    (data : List Nat) : GoOutcome (EngineState × Option (List Nat) × Option String) :=
  match goLookup st.callableExtensions extensionId with
  | none => .ok (st, none, none)
  | some pref =>
    let ext? := goLookup st.extensions extensionId
    let step : GoOutcome EngineState :=
      match st.plugHeap[pref]? with
      | none => .panicked "invalid plugin reference"
      | some pc => if pc.PluginInst = none then instantiate sb st pref else .ok st
    match step with
    | .panicked msg => .panicked msg
    | .ok st1 =>
      match ext? with
      | none => .panicked "nil pointer dereference: extension.Func"
      | some eref =>
        match st1.extHeap[eref]? with
        | none => .panicked "invalid extension reference"
        | some ec =>
          match st1.plugHeap[pref]?.bind (·.PluginInst) with
          | none => .panicked "nil pointer dereference: callable.Plugin.Call"
          | some inst =>
            match sb.call inst ec.e.FuncName data with
            | .error msg => .ok (st1, none, some msg)
            | .ok d => .ok (st1, some d, none)

/-! ## Path handling for `Engine.Load` (engine.go)

`Load` lowercases the argument, early-returns on an `http` prefix, and
otherwise scans `filepath.Join(os.Getwd(), lowered)`.  `filepath.Join` and
`filepath.Clean` (Unix rules) are modelled at the character-list level with
the standard component-stack reading of Clean's lexical algorithm. -/

/-- `strings.ToLower` restricted to its ASCII behaviour ('A'-'Z' map down,
everything else unchanged); theorems that could be sensitive to non-ASCII
letters carry an ASCII hypothesis. -/
def goToLowerChar (c : Char) : Char :=
  if 'A' ≤ c ∧ c ≤ 'Z' then Char.ofNat (c.toNat + 32) else c

def goToLower (s : String) : String := ⟨s.data.map goToLowerChar⟩

/-- `strings.HasPrefix`. -/
def goHasPrefixL : List Char → List Char → Bool
  | _, [] => true
  | [], _ :: _ => false
  | c :: cs, p :: ps => p = c && goHasPrefixL cs ps

/-- One component step of `filepath.Clean`: empty and `.` components
vanish; `..` pops a non-`..` top, is dropped at the root when `rooted`, and
accumulates otherwise.  The stack keeps the most recent component first. -/
def cleanStackStep (rooted : Bool) (stack : List (List Char)) (c : List Char) :
    List (List Char) :=
  if c = [] ∨ c = ['.'] then stack
  else if c = ['.', '.'] then
    match stack with
    | [] => if rooted then [] else [['.', '.']]
    | top :: stack' =>
      if top = ['.', '.'] then ['.', '.'] :: top :: stack' else stack'
  else c :: stack

/-- Component-stack processing of `filepath.Clean`'s lexical loop. -/
def cleanStack (rooted : Bool) (stack : List (List Char))
    (comps : List (List Char)) : List (List Char) :=
  comps.foldl (cleanStackStep rooted) stack

/-- `strings.Join(comps, "/")`. -/
def joinComps : List (List Char) → List Char
  | [] => []
  | [c] => c
  | c :: rest => c ++ '/' :: joinComps rest

/-- Rendering of the cleaned component list: rooted paths get a leading
slash; an empty unrooted result is `"."`. -/
def renderClean (rooted : Bool) (comps : List (List Char)) : List Char :=
  if rooted then '/' :: joinComps comps
  else if comps = [] then ['.'] else joinComps comps

/-- `filepath.Clean` (Unix): lexical cleaning; `""` cleans to `"."`. -/
def goCleanL (l : List Char) : List Char :=
  if l = [] then ['.']
  else renderClean (decide (l.head? = some '/'))
    ((cleanStack (decide (l.head? = some '/')) [] (splitOnSep '/' l)).reverse)

/-- The part of `Clean(w ++ "/" ++ x)` contributed by `w` when `x` is a
plain final component: the cleaned prefix up to and including the final
separator (proof artifact, computed only from `w`). -/
def cleanPrefix (w : List Char) : List Char :=
  if decide (w.head? = some '/') then
    (if (cleanStack (decide (w.head? = some '/')) [] (splitOnSep '/' w)).reverse = []
     then ['/']
     else '/' :: joinComps ((cleanStack (decide (w.head? = some '/')) []
       (splitOnSep '/' w)).reverse) ++ ['/'])
  else
    (if (cleanStack (decide (w.head? = some '/')) [] (splitOnSep '/' w)).reverse = []
     then []
     else joinComps ((cleanStack (decide (w.head? = some '/')) []
       (splitOnSep '/' w)).reverse) ++ ['/'])

/-- `filepath.Join(a, b)`: skips leading empty elements, then cleans the
`"/"`-joined remainder. -/
def goJoinL (a b : List Char) : List Char :=
  if a = [] then (if b = [] then [] else goCleanL b)
  else goCleanL (a ++ '/' :: b)

def goClean (s : String) : String := ⟨goCleanL s.data⟩

def goJoin (a b : String) : String := ⟨goJoinL a.data b.data⟩

/-- The directory `Engine.Load` scans for a non-URL path: `none` when the
lowered path has the `http` prefix (the early-return URL branch), otherwise
`filepath.Join(cwd, strings.ToLower(path))`. -/
def loadScanPath (cwd path : String) : Option String :=
  let lower := goToLower path
  if goHasPrefixL lower.data "http".data then none
  else some (goJoin cwd lower)

/-- The key invariant of the `extensionPoints` assoc list: every cell stored
under a key carries that key as its `ep.Id`.  Both registration paths
(`addPlugin` and `RegisterHostExtensionPoint`) insert cells under `ep.Id`,
so this holds for every reachable engine state. -/
def epListInv (m : List (String × List EPCell)) : Bool :=
  m.all fun kv => kv.2.all fun c => decide (c.ep.Id = kv.1)

def epKeyInvB (st : EngineState) : Bool := epListInv st.extensionPoints

/-- `resolve` never changes the `e` (manifest data) or `Plugin` (owner
snapshot) components of extension cells — only their `Resolved` flags. -/
def framePres (st₀ st' : EngineState) : Prop :=
  ∀ w : Nat, (st'.extHeap[w]?.map fun c => (c.e, c.Plugin)) =
    (st₀.extHeap[w]?.map fun c => (c.e, c.Plugin))

/-- Some list of `n` extension-point cells is registered under `key`. -/
def keyLen (st' : EngineState) (key : String) (n : Nat) : Prop :=
  ∃ epsX, goLookup st'.extensionPoints key = some epsX ∧ epsX.length = n

/-- Extension-cell reference `vref` appears in the `Extensions` list of the
`j`-th extension point registered under `key`. -/
def memAt (st' : EngineState) (key : String) (j vref : Nat) : Prop :=
  ∃ epsX, goLookup st'.extensionPoints key = some epsX ∧
    ∃ c, epsX[j]? = some c ∧ vref ∈ c.Extensions

/-- Mid-`resolve` snapshot *before* the pending extension `vref` (with
record `vc`, `n` extension points registered under its key) has been
processed. -/
def prePhase (st : EngineState) (vref : Nat) (vc : ExtCell) (n : Nat)
    (st' : EngineState) : Prop :=
  epKeyInvB st' = true ∧ framePres st st' ∧ st'.extHeap[vref]? = some vc ∧
  keyLen st' vc.e.ExtensionPoint n

/-- Mid-`resolve` snapshot *after* `vref` has been processed: attached to
all `n` extension points under its key, marked resolved, and published. -/
def postPhase (st : EngineState) (vref : Nat) (vc : ExtCell) (n : Nat)
    (st' : EngineState) : Prop :=
  epKeyInvB st' = true ∧ framePres st st' ∧
  st'.extHeap[vref]? = some { vc with Resolved := true } ∧
  keyLen st' vc.e.ExtensionPoint n ∧
  (∀ j, j < n → memAt st' vc.e.ExtensionPoint j vref) ∧
  goLookup st'.extensions vc.e.Id = some vref

/-! ## Concrete scenario states -/

/-- Plugin manifest declaring one extension `e1` anchored to `ep.x`, no
extension points (spec scenario S2's plugin `A`). -/
def manifestA : PluginManifest :=
  { Id := "pA", Name := "A", Version := "1.0.0", Description := "", LoadOnStart := false
    ExtensionPoints := []
    Extensions := [{ Id := "e1", ExtensionPoint := "ep.x", Name := "E1", Description := "", FuncName := "draw" }] }

/-- Plugin manifest declaring both the extension point `ep.x` and an
extension `e1` anchored to it. -/
def manifestP : PluginManifest :=
  { Id := "p", Name := "P", Version := "1.1.1", Description := "", LoadOnStart := false
    ExtensionPoints := [{ Id := "ep.x", Name := "EP", Description := "", Version := "1.0.0" }]
    Extensions := [{ Id := "e1", ExtensionPoint := "ep.x", Name := "E1", Description := "", FuncName := "draw" }] }

/-- Engine after loading `manifestA` alone: its extension references the
unregistered extension point `ep.x`. -/
def stOrphan : EngineState := admitManifest newPluginEngine manifestA "a.wasm"

/-- `stOrphan` after the host registers `ep.x` (which triggers `resolve`). -/
def stLateEP : EngineState := RegisterHostExtensionPoint stOrphan "ep.x" "X" "1.0.0" ""

/-- Engine with two host extension points sharing the id `ep.x`, then
`manifestA` loaded (its `e1` matches both). -/
def stTwoEPs : EngineState :=
  admitManifest
    (RegisterHostExtensionPoint
      (RegisterHostExtensionPoint newPluginEngine "ep.x" "X1" "1.0.0" "")
      "ep.x" "X2" "1.0.0" "")
    manifestA "a.wasm"

/-- Engine after loading `manifestP` once. -/
def stOnce : EngineState := admitManifest newPluginEngine manifestP "a.wasm"

/-- Engine after loading `manifestP` twice (same `(Id, Version)`), the second
copy from a different archive. -/
def stTwice : EngineState := admitManifest stOnce manifestP "b.wasm"

/-- Manifest with the non-semver version `"1.0"` (spec scenario S5). -/
def manifestBadVersion : PluginManifest :=
  { Id := "p1", Name := "P1", Version := "1.0", Description := "", LoadOnStart := false
    ExtensionPoints := [], Extensions := [] }

/-- The extension record of `manifestA`'s `e1` as an engine cell. -/
def cellE1 : ExtCell :=
  { e := { Id := "e1", ExtensionPoint := "ep.x", Name := "E1", Description := "", FuncName := "draw" }
    Plugin := default, Resolved := false }

def epX1 : EPCell :=
  { ep := { Id := "ep.x", Name := "X1", Description := "", Version := "1.0.0" }
    Extensions := [], Plugin := default }

def epX2 : EPCell :=
  { ep := { Id := "ep.x", Name := "X2", Description := "", Version := "1.0.0" }
    Extensions := [], Plugin := default }

/-- A registry state about to run `resolve`: one pending extension `e1`
whose key `ep.x` has two registered extension points. -/
def stC4 : EngineState :=
  { plugHeap := [default], extHeap := [cellE1], plugins := [("pA", [("1.0.0", 0)])]
    extensionPoints := [("ep.x", [epX1, epX2])], extensions := [], unresolved := [0]
    callableExtensions := [("e1", 0)] }

/-- Sandbox whose instance creation always fails (e.g. malformed WASM). -/
def sbFail : Sandbox := ⟨fun _ => none, fun _ _ _ => .ok []⟩

/-- Sandbox whose instance creation always succeeds with instance 7 and whose
calls succeed, echoing the payload plus the export name's length. -/
def sbOk : Sandbox := ⟨fun _ => some 7, fun _ f d => .ok (d ++ [f.length])⟩

/-! ## Basic lemmas about the map and heap operations -/

theorem listModify_get? {α : Type} (l : List α) (i j : Nat) (f : α → α) :
    (listModify l i f)[j]? = if j = i then l[j]?.map f else l[j]? := by
  induction l generalizing i j with
  | nil => simp [listModify]
  | cons a rest ih =>
    cases i with
    | zero => cases j <;> simp [listModify]
    | succ n =>
      cases j with
      | zero => simp [listModify]
      | succ m => simpa [listModify] using ih n m

theorem goLookup_goInsert {α : Type} (m : List (String × α)) (k k' : String) (v : α) :
    goLookup (goInsert m k v) k' = if k = k' then some v else goLookup m k' := by
  induction m with
  | nil => simp [goInsert, goLookup]
  | cons kv rest ih =>
    obtain ⟨k₀, v₀⟩ := kv
    by_cases h0 : k₀ = k
    · subst h0
      by_cases h1 : k₀ = k' <;> simp [goInsert, goLookup, h1]
    · by_cases h1 : k₀ = k'
      · have hk : ¬ k = k' := fun h => h0 (h1.trans h.symm)
        have hk' : ¬ k' = k := fun h => hk h.symm
        simp [goInsert, goLookup, h0, h1, hk, hk']
      · simp [goInsert, goLookup, h0, h1, ih]

theorem goLookup_modifyAssoc {α : Type} (m : List (String × α)) (k k' : String) (f : α → α) :
    goLookup (modifyAssoc m k f) k' =
      if k = k' then (goLookup m k').map f else goLookup m k' := by
  induction m with
  | nil => simp [modifyAssoc, goLookup]
  | cons kv rest ih =>
    obtain ⟨k₀, v₀⟩ := kv
    by_cases h0 : k₀ = k
    · subst h0
      by_cases h1 : k₀ = k' <;> simp [modifyAssoc, goLookup, h1, ih]
    · by_cases h1 : k₀ = k'
      · have hk : ¬ k = k' := fun h => h0 (h1.trans h.symm)
        have hk' : ¬ k' = k := fun h => hk h.symm
        simp [modifyAssoc, goLookup, h0, h1, hk, hk']
      · simp [modifyAssoc, goLookup, h0, h1, ih]

theorem goLookup_mem {α : Type} {m : List (String × α)} {k : String} {v : α}
    (h : goLookup m k = some v) : (k, v) ∈ m := by
  induction m with
  | nil => simp [goLookup] at h
  | cons kv rest ih =>
    obtain ⟨k₀, v₀⟩ := kv
    by_cases h0 : k₀ = k
    · subst h0
      simp [goLookup] at h
      simp [h]
    · simp [goLookup, h0] at h
      exact List.mem_cons_of_mem _ (ih h)

/-! ## The extension-point key invariant and `resolve` -/

theorem all_listModify {α : Type} (l : List α) (i : Nat) (g : α → α) (p : α → Bool)
    (hg : ∀ a, p a = true → p (g a) = true) (h : l.all p = true) :
    (listModify l i g).all p = true := by
  induction l generalizing i with
  | nil => simp [listModify]
  | cons a rest ih =>
    cases i with
    | zero =>
      simp only [listModify, List.all_cons, Bool.and_eq_true] at h ⊢
      exact ⟨hg a h.1, h.2⟩
    | succ n =>
      simp only [listModify, List.all_cons, Bool.and_eq_true] at h ⊢
      exact ⟨h.1, ih n h.2⟩

theorem epListInv_modifyAssoc (m : List (String × List EPCell)) (k : String)
    (f : List EPCell → List EPCell)
    (hf : ∀ cells, (cells.all fun c => decide (c.ep.Id = k)) = true →
      ((f cells).all fun c => decide (c.ep.Id = k)) = true)
    (h : epListInv m = true) : epListInv (modifyAssoc m k f) = true := by
  induction m with
  | nil => simpa [modifyAssoc] using h
  | cons kv rest ih =>
    obtain ⟨k₀, v₀⟩ := kv
    simp only [epListInv, List.all_cons, Bool.and_eq_true] at h
    by_cases h0 : k₀ = k
    · subst h0
      have h2 : modifyAssoc ((k₀, v₀) :: rest) k₀ f = (k₀, f v₀) :: rest := by
        simp [modifyAssoc]
      rw [h2]
      simp only [epListInv, List.all_cons, Bool.and_eq_true]
      exact ⟨hf v₀ h.1, h.2⟩
    · have h2 : modifyAssoc ((k₀, v₀) :: rest) k f = (k₀, v₀) :: modifyAssoc rest k f := by
        simp [modifyAssoc, h0]
      rw [h2]
      simp only [epListInv, List.all_cons, Bool.and_eq_true]
      exact ⟨h.1, ih h.2⟩

theorem epKeyInvB_epAppend (st : EngineState) (k : String) (i vref : Nat)
    (h : epKeyInvB st = true) : epKeyInvB (epAppend st k i vref) = true := by
  unfold epKeyInvB epAppend at *
  exact epListInv_modifyAssoc _ _ _
    (fun cells hc => all_listModify _ _ _ _ (fun a ha => by simpa using ha) hc) h

theorem epKeyInvB_setExtResolved (st : EngineState) (v : Nat) :
    epKeyInvB (setExtResolved st v) = epKeyInvB st := rfl

theorem epKeyInvB_pubExt (st : EngineState) (id : String) (v : Nat) :
    epKeyInvB (pubExt st id v) = epKeyInvB st := rfl

/-- Under the key invariant, every cell found under a key has that key as id. -/
theorem epKeyInv_lookup (st : EngineState) (k : String) (eps : List EPCell)
    (h : epKeyInvB st = true) (hl : goLookup st.extensionPoints k = some eps) :
    ∀ c ∈ eps, c.ep.Id = k := by
  intro c hc
  have hmem := goLookup_mem hl
  have h1 := List.all_eq_true.mp h _ hmem
  exact of_decide_eq_true (List.all_eq_true.mp h1 c hc)

/-- The inner loop of `resolve` never touches `leftover` when every snapshot
cell matches the key (which the key invariant guarantees), and it preserves
the key invariant. -/
theorem resolveInner_fold (vc : ExtCell) (vref : Nat) (eps : List EPCell)
    (hall : ∀ c ∈ eps, c.ep.Id = vc.e.ExtensionPoint) :
    ∀ (idxs : List Nat), (∀ i ∈ idxs, i < eps.length) →
      ∀ (st : EngineState) (lo : List Nat), epKeyInvB st = true →
        (idxs.foldl (resolveInner vc vref eps) (st, lo)).2 = lo ∧
        epKeyInvB (idxs.foldl (resolveInner vc vref eps) (st, lo)).1 = true := by
  intro idxs
  induction idxs with
  | nil => intro _ st lo h; exact ⟨rfl, h⟩
  | cons i rest ih =>
    intro hlt st lo h
    have hi : i < eps.length := hlt i (List.mem_cons_self i rest)
    have hsome : eps[i]? = some eps[i] := List.getElem?_eq_getElem hi
    have hid : eps[i].ep.Id = vc.e.ExtensionPoint := hall _ (List.getElem_mem hi)
    have hstep : resolveInner vc vref eps (st, lo) i =
        (pubExt (setExtResolved (epAppend st vc.e.ExtensionPoint i vref) vref) vc.e.Id vref, lo) := by
      simp [resolveInner, hsome, hid]
    rw [List.foldl_cons, hstep]
    refine ih (fun j hj => hlt j (List.mem_cons_of_mem i hj)) _ lo ?_
    rw [epKeyInvB_pubExt, epKeyInvB_setExtResolved]
    exact epKeyInvB_epAppend _ _ _ _ h

/-- One outer iteration of `resolve` leaves `leftover` unchanged and
preserves the key invariant. -/
theorem resolveStep_inv (st : EngineState) (lo : List Nat) (vref : Nat)
    (h : epKeyInvB st = true) :
    (resolveStep (st, lo) vref).2 = lo ∧ epKeyInvB (resolveStep (st, lo) vref).1 = true := by
  unfold resolveStep
  cases hv : st.extHeap[vref]? with
  | none => exact ⟨rfl, h⟩
  | some vc =>
    show (if vc.Resolved = true then ((st, lo) : EngineState × List Nat)
        else match goLookup st.extensionPoints vc.e.ExtensionPoint with
          | none => (st, lo)
          | some eps =>
            if eps.length = 0 then (st, lo)
            else (List.range eps.length).foldl (resolveInner vc vref eps) (st, lo)).2 = lo ∧
      epKeyInvB (if vc.Resolved = true then ((st, lo) : EngineState × List Nat)
        else match goLookup st.extensionPoints vc.e.ExtensionPoint with
          | none => (st, lo)
          | some eps =>
            if eps.length = 0 then (st, lo)
            else (List.range eps.length).foldl (resolveInner vc vref eps) (st, lo)).1 = true
    cases hr : vc.Resolved with
    | true => exact ⟨rfl, h⟩
    | false =>
      cases hl : goLookup st.extensionPoints vc.e.ExtensionPoint with
      | none => exact ⟨rfl, h⟩
      | some eps =>
        show (if eps.length = 0 then ((st, lo) : EngineState × List Nat)
            else (List.range eps.length).foldl (resolveInner vc vref eps) (st, lo)).2 = lo ∧
          epKeyInvB (if eps.length = 0 then ((st, lo) : EngineState × List Nat)
            else (List.range eps.length).foldl (resolveInner vc vref eps) (st, lo)).1 = true
        by_cases hn : eps.length = 0
        · rw [if_pos hn]
          exact ⟨rfl, h⟩
        · rw [if_neg hn]
          exact resolveInner_fold vc vref eps (epKeyInv_lookup st _ eps h hl)
            (List.range eps.length) (fun i hi => List.mem_range.mp hi) st lo h

/-- The whole outer loop of `resolve` produces an empty `leftover` under the
key invariant, and preserves it. -/
theorem resolve_fold_inv (l : List Nat) :
    ∀ (st : EngineState) (lo : List Nat), epKeyInvB st = true →
      (l.foldl resolveStep (st, lo)).2 = lo ∧
      epKeyInvB (l.foldl resolveStep (st, lo)).1 = true := by
  induction l with
  | nil => intro st lo h; exact ⟨rfl, h⟩
  | cons v rest ih =>
    intro st lo h
    obtain ⟨h1, h2⟩ := resolveStep_inv st lo v h
    rw [List.foldl_cons, ← Prod.mk.eta (p := resolveStep (st, lo) v), h1]
    exact ih _ lo h2

/-! ## The key invariant holds in every reachable state -/

theorem epKeyInvB_newPluginEngine : epKeyInvB newPluginEngine = true := rfl

theorem epKeyInvB_resolve (st : EngineState) (h : epKeyInvB st = true) :
    epKeyInvB (resolve st) = true := by
  unfold resolve
  by_cases h0 : st.unresolved.length = 0
  · rw [if_pos h0]
    exact h
  · rw [if_neg h0]
    exact (resolve_fold_inv st.unresolved st [] h).2

/-- Inserting a cell under its own `ep.Id` (appended to whatever was there)
preserves the key invariant. -/
theorem epListInv_goInsert_own (m : List (String × List EPCell)) (k : String)
    (cell : EPCell) (hc : cell.ep.Id = k) (h : epListInv m = true) :
    epListInv (goInsert m k ((goLookup m k).getD [] ++ [cell])) = true := by
  induction m with
  | nil => simp [goInsert, goLookup, epListInv, hc]
  | cons kv rest ih =>
    obtain ⟨k₀, v₀⟩ := kv
    simp only [epListInv, List.all_cons, Bool.and_eq_true] at h
    by_cases h0 : k₀ = k
    · subst h0
      have h2 : goInsert ((k₀, v₀) :: rest) k₀
            ((goLookup ((k₀, v₀) :: rest) k₀).getD [] ++ [cell]) =
          (k₀, v₀ ++ [cell]) :: rest := by
        simp [goInsert, goLookup]
      rw [h2]
      simp only [epListInv, List.all_cons, Bool.and_eq_true, List.all_append]
      exact ⟨⟨h.1, by simp [hc]⟩, h.2⟩
    · have h2 : goInsert ((k₀, v₀) :: rest) k
            ((goLookup ((k₀, v₀) :: rest) k).getD [] ++ [cell]) =
          (k₀, v₀) :: goInsert rest k ((goLookup rest k).getD [] ++ [cell]) := by
        simp [goInsert, goLookup, h0]
      rw [h2]
      simp only [epListInv, List.all_cons, Bool.and_eq_true]
      exact ⟨h.1, ih h.2⟩

/-- `RegisterHostExtensionPoint` preserves the key invariant. -/
theorem epKeyInvB_RegisterHostExtensionPoint (st : EngineState)
    (id name version description : String) (h : epKeyInvB st = true) :
    epKeyInvB (RegisterHostExtensionPoint st id name version description) = true := by
  unfold RegisterHostExtensionPoint
  exact epKeyInvB_resolve _ (epListInv_goInsert_own st.extensionPoints id _ rfl h)

/-- The extension loop of `addPlugin` never touches `extensionPoints`. -/
theorem addPluginExtStep_extensionPoints (pref : Nat) (pv : PluginVal)
    (st : EngineState) (ex : PExtension) :
    (addPluginExtStep pref pv st ex).extensionPoints = st.extensionPoints := by
  unfold addPluginExtStep
  cases goLookup st.callableExtensions ex.Id <;> rfl

theorem epKeyInvB_extFold (pref : Nat) (pv : PluginVal) (l : List PExtension) :
    ∀ st : EngineState, epKeyInvB st = true →
      epKeyInvB (l.foldl (addPluginExtStep pref pv) st) = true := by
  induction l with
  | nil => intro st h; exact h
  | cons ex rest ih =>
    intro st h
    rw [List.foldl_cons]
    refine ih _ ?_
    unfold epKeyInvB
    rw [addPluginExtStep_extensionPoints]
    exact h

theorem epKeyInvB_epFold (pv : PluginVal) (l : List PExtensionPoint) :
    ∀ st : EngineState, epKeyInvB st = true →
      epKeyInvB (l.foldl (addPluginEPStep pv) st) = true := by
  induction l with
  | nil => intro st h; exact h
  | cons ep rest ih =>
    intro st h
    rw [List.foldl_cons]
    exact ih _ (epListInv_goInsert_own st.extensionPoints ep.Id _ rfl h)

/-- `addPlugin` preserves the key invariant: the extension loop leaves
`extensionPoints` untouched, the extension-point loop inserts each cell
under its own id, and the final `resolve` preserves it. -/
theorem epKeyInvB_addPlugin (st : EngineState) (pref : Nat) (plug : PluginManifest)
    (h : epKeyInvB st = true) : epKeyInvB (addPlugin st pref plug) = true := by
  unfold addPlugin
  exact epKeyInvB_resolve _ (epKeyInvB_epFold _ _ _ (epKeyInvB_extFold _ _ _ _ h))

/-- `admitManifest` (the per-manifest admission of `loadPluginManifests`)
preserves the key invariant. -/
theorem epKeyInvB_admitManifest (st : EngineState) (plug : PluginManifest)
    (wasmPath : String) (h : epKeyInvB st = true) :
    epKeyInvB (admitManifest st plug wasmPath) = true :=
  epKeyInvB_addPlugin _ _ _ h

/-- `instantiate` touches only the plugin heap, never `extensionPoints`. -/
theorem epKeyInvB_instantiate (sb : Sandbox) (st st' : EngineState) (pref : Nat)
    (h : instantiate sb st pref = .ok st') (hinv : epKeyInvB st = true) :
    epKeyInvB st' = true := by
  unfold instantiate at h
  cases hv : st.plugHeap[pref]? with
  | none =>
    rw [hv] at h
    exact absurd h (by simp)
  | some pc =>
    rw [hv] at h
    cases hn : sb.newPlugin pc.PathToModule with
    | none =>
      simp only [hn] at h
      exact absurd h (by simp)
    | some i =>
      simp only [hn] at h
      injection h with h
      rw [← h]
      exact hinv

/-! ## Frame lemmas for the three mutations performed by `resolve` -/

theorem listModify_length {α : Type} (l : List α) (i : Nat) (f : α → α) :
    (listModify l i f).length = l.length := by
  induction l generalizing i with
  | nil => rfl
  | cons a rest ih => cases i <;> simp [listModify, ih]

theorem epAppend_extHeap (st : EngineState) (k : String) (i r : Nat) :
    (epAppend st k i r).extHeap = st.extHeap := rfl

theorem epAppend_extensions (st : EngineState) (k : String) (i r : Nat) :
    (epAppend st k i r).extensions = st.extensions := rfl

theorem setExtResolved_extensionPoints (st : EngineState) (v : Nat) :
    (setExtResolved st v).extensionPoints = st.extensionPoints := rfl

theorem setExtResolved_extensions (st : EngineState) (v : Nat) :
    (setExtResolved st v).extensions = st.extensions := rfl

theorem pubExt_extensionPoints (st : EngineState) (id : String) (v : Nat) :
    (pubExt st id v).extensionPoints = st.extensionPoints := rfl

theorem pubExt_extHeap (st : EngineState) (id : String) (v : Nat) :
    (pubExt st id v).extHeap = st.extHeap := rfl

theorem setExtResolved_getElem (st : EngineState) (v w : Nat) :
    (setExtResolved st v).extHeap[w]? =
      if w = v then st.extHeap[w]?.map fun c => { c with Resolved := true }
      else st.extHeap[w]? :=
  listModify_get? _ _ _ _

theorem goLookup_pubExt (st : EngineState) (id id' : String) (v : Nat) :
    goLookup (pubExt st id v).extensions id' =
      if id = id' then some v else goLookup st.extensions id' :=
  goLookup_goInsert _ _ _ _

theorem goLookup_epAppend (st : EngineState) (k k' : String) (i r : Nat) :
    goLookup (epAppend st k i r).extensionPoints k' =
      if k = k' then (goLookup st.extensionPoints k').map
        (fun cells => listModify cells i fun c => { c with Extensions := c.Extensions ++ [r] })
      else goLookup st.extensionPoints k' :=
  goLookup_modifyAssoc _ _ _ _

theorem framePres_refl (st₀ : EngineState) : framePres st₀ st₀ := fun _ => rfl

theorem framePres_setExtResolved (st₀ st' : EngineState) (v : Nat)
    (h : framePres st₀ st') : framePres st₀ (setExtResolved st' v) := by
  intro w
  rw [← h w, setExtResolved_getElem]
  by_cases hw : w = v
  · cases st'.extHeap[w]? <;> simp [hw]
  · simp [hw]

theorem framePres_triple (st₀ st' : EngineState) (k id : String) (i w' : Nat)
    (h : framePres st₀ st') :
    framePres st₀ (pubExt (setExtResolved (epAppend st' k i w') w') id w') := by
  intro w
  have h2 := framePres_setExtResolved st₀ (epAppend st' k i w') w'
    (fun u => by rw [epAppend_extHeap]; exact h u)
  exact h2 w

theorem keyLen_triple (st' : EngineState) (key : String) (n : Nat) (k id : String) (i w' : Nat)
    (h : keyLen st' key n) :
    keyLen (pubExt (setExtResolved (epAppend st' k i w') w') id w') key n := by
  obtain ⟨epsX, h1, h2⟩ := h
  unfold keyLen
  rw [pubExt_extensionPoints, setExtResolved_extensionPoints, goLookup_epAppend]
  by_cases hk : k = key
  · exact ⟨_, by rw [if_pos hk, h1]; rfl, by rw [listModify_length]; exact h2⟩
  · exact ⟨epsX, by rw [if_neg hk]; exact h1, h2⟩

theorem memAt_triple (st' : EngineState) (key : String) (j vref : Nat) (k id : String)
    (i w' : Nat) (h : memAt st' key j vref) :
    memAt (pubExt (setExtResolved (epAppend st' k i w') w') id w') key j vref := by
  obtain ⟨epsX, h1, c, hc, hm⟩ := h
  unfold memAt
  rw [pubExt_extensionPoints, setExtResolved_extensionPoints, goLookup_epAppend]
  by_cases hk : k = key
  · refine ⟨_, by rw [if_pos hk, h1]; rfl, ?_⟩
    rw [listModify_get?]
    by_cases hj : j = i
    · exact ⟨_, by rw [if_pos hj, hc]; rfl, List.mem_append_left _ hm⟩
    · exact ⟨c, by rw [if_neg hj]; exact hc, hm⟩
  · exact ⟨epsX, by rw [if_neg hk]; exact h1, c, hc, hm⟩

theorem epKeyInvB_triple (st' : EngineState) (k id : String) (i w' : Nat)
    (h : epKeyInvB st' = true) :
    epKeyInvB (pubExt (setExtResolved (epAppend st' k i w') w') id w') = true := by
  rw [epKeyInvB_pubExt, epKeyInvB_setExtResolved]
  exact epKeyInvB_epAppend _ _ _ _ h

/-- Any state predicate stable under the triple mutation (`ep.Extensions`
append / `v.Resolved = true` / `e.extensions[v.Id] = v`) performed for the
fixed extension `w'` is stable along the whole inner loop of `resolve`. -/
theorem foldl_resolveInner_pres (R : EngineState → Prop) (vc' : ExtCell) (w' : Nat)
    (eps' : List EPCell)
    (hR : ∀ (st₂ : EngineState) (i : Nat), R st₂ →
      R (pubExt (setExtResolved (epAppend st₂ vc'.e.ExtensionPoint i w') w') vc'.e.Id w')) :
    ∀ (idxs : List Nat) (acc : EngineState × List Nat), R acc.1 →
      R ((idxs.foldl (resolveInner vc' w' eps') acc).1) := by
  intro idxs
  induction idxs with
  | nil => intro acc h; exact h
  | cons i rest ih =>
    intro acc h
    rw [List.foldl_cons]
    apply ih
    unfold resolveInner
    by_cases hc : (eps'[i]?.map fun c => c.ep.Id) = some vc'.e.ExtensionPoint
    · rw [if_pos hc]; exact hR acc.1 i h
    · rw [if_neg hc]; exact h

/-- An outer `resolve` iteration whose extension record is already resolved
does nothing. -/
theorem resolveStep_skip (st₂ : EngineState) (lo₂ : List Nat) (w : Nat) (X : ExtCell)
    (hv : st₂.extHeap[w]? = some X) (hr : X.Resolved = true) :
    resolveStep (st₂, lo₂) w = (st₂, lo₂) := by
  unfold resolveStep
  rw [hv]
  show (if X.Resolved = true then ((st₂, lo₂) : EngineState × List Nat) else _) = (st₂, lo₂)
  rw [if_pos hr]

/-- Any state predicate stable under the triple mutation for an arbitrary
unresolved extension record found at `w` is stable under the whole outer
iteration `resolveStep _ w`. -/
theorem resolveStep_pres (R : EngineState → Prop) (w : Nat)
    (hR : ∀ (st₂ : EngineState) (vc' : ExtCell), st₂.extHeap[w]? = some vc' →
      vc'.Resolved = false → R st₂ →
      ∀ (st₃ : EngineState) (i : Nat), R st₃ →
      R (pubExt (setExtResolved (epAppend st₃ vc'.e.ExtensionPoint i w) w) vc'.e.Id w)) :
    ∀ (st₂ : EngineState) (lo₂ : List Nat), R st₂ → R ((resolveStep (st₂, lo₂) w).1) := by
  intro st₂ lo₂ h
  unfold resolveStep
  cases hv : st₂.extHeap[w]? with
  | none => exact h
  | some vc' =>
    show R ((if vc'.Resolved = true then ((st₂, lo₂) : EngineState × List Nat)
        else match goLookup st₂.extensionPoints vc'.e.ExtensionPoint with
          | none => (st₂, lo₂)
          | some eps' =>
            if eps'.length = 0 then (st₂, lo₂)
            else (List.range eps'.length).foldl (resolveInner vc' w eps') (st₂, lo₂)).1)
    cases hr : vc'.Resolved with
    | true => exact h
    | false =>
      cases hl : goLookup st₂.extensionPoints vc'.e.ExtensionPoint with
      | none => exact h
      | some eps' =>
        show R ((if eps'.length = 0 then ((st₂, lo₂) : EngineState × List Nat)
            else (List.range eps'.length).foldl (resolveInner vc' w eps') (st₂, lo₂)).1)
        by_cases hn : eps'.length = 0
        · rw [if_pos hn]; exact h
        · rw [if_neg hn]
          exact foldl_resolveInner_pres R vc' w eps'
            (fun st₃ i h₃ => hR st₂ vc' hv hr h st₃ i h₃) _ _ h

theorem prePhase_triple (st : EngineState) (vref : Nat) (vc : ExtCell) (n : Nat)
    (k' id' : String) (i w : Nat) (hw : w ≠ vref) (st₃ : EngineState)
    (h : prePhase st vref vc n st₃) :
    prePhase st vref vc n (pubExt (setExtResolved (epAppend st₃ k' i w) w) id' w) := by
  obtain ⟨h1, h2, h3, h4⟩ := h
  refine ⟨epKeyInvB_triple _ _ _ _ _ h1, framePres_triple _ _ _ _ _ _ h2, ?_,
    keyLen_triple _ _ _ _ _ _ _ h4⟩
  rw [pubExt_extHeap, setExtResolved_getElem, if_neg (fun hh => hw hh.symm), epAppend_extHeap]
  exact h3

theorem postPhase_triple (st : EngineState) (vref : Nat) (vc : ExtCell) (n : Nat)
    (k' id' : String) (i w : Nat) (hw : w ≠ vref) (hid : id' ≠ vc.e.Id) (st₃ : EngineState)
    (h : postPhase st vref vc n st₃) :
    postPhase st vref vc n (pubExt (setExtResolved (epAppend st₃ k' i w) w) id' w) := by
  obtain ⟨h1, h2, h3, h4, h5, h6⟩ := h
  refine ⟨epKeyInvB_triple _ _ _ _ _ h1, framePres_triple _ _ _ _ _ _ h2, ?_,
    keyLen_triple _ _ _ _ _ _ _ h4,
    fun j hj => memAt_triple _ _ _ _ _ _ _ _ (h5 j hj), ?_⟩
  · rw [pubExt_extHeap, setExtResolved_getElem, if_neg (fun hh => hw hh.symm), epAppend_extHeap]
    exact h3
  · rw [goLookup_pubExt, if_neg hid, setExtResolved_extensions, epAppend_extensions]
    exact h6

/-- A cell present mid-`resolve` descends from an original cell with the
same manifest data. -/
theorem framePres_origCell (st st' : EngineState) (h : framePres st st') (w : Nat)
    (vc' : ExtCell) (hv : st'.extHeap[w]? = some vc') :
    ∃ wc₀, st.extHeap[w]? = some wc₀ ∧ wc₀.e = vc'.e := by
  have hw := h w
  rw [hv] at hw
  cases ho : st.extHeap[w]? with
  | none => rw [ho] at hw; simp at hw
  | some wc₀ =>
    rw [ho] at hw
    simp only [Option.map_some', Option.some.injEq, Prod.mk.injEq] at hw
    exact ⟨wc₀, rfl, hw.1.symm⟩

/-- Processing the pending extension itself marks its record resolved and
publishes it, and the rest of the inner loop keeps it that way. -/
theorem inner_establish_cellpub (vc : ExtCell) (vref : Nat) (epsC : List EPCell)
    (ids : ∀ c ∈ epsC, c.ep.Id = vc.e.ExtensionPoint) :
    ∀ (idxs : List Nat), (∀ i ∈ idxs, i < epsC.length) → idxs ≠ [] →
    ∀ (acc : EngineState × List Nat),
      (acc.1.extHeap[vref]? = some vc ∨
        acc.1.extHeap[vref]? = some { vc with Resolved := true }) →
      ((idxs.foldl (resolveInner vc vref epsC) acc).1.extHeap[vref]? =
          some { vc with Resolved := true } ∧
        goLookup (idxs.foldl (resolveInner vc vref epsC) acc).1.extensions vc.e.Id =
          some vref) := by
  intro idxs
  cases idxs with
  | nil => intro _ hne; exact absurd rfl hne
  | cons i rest =>
    intro hlt _ acc hcell
    rw [List.foldl_cons]
    have hi : i < epsC.length := hlt i (List.mem_cons_self i rest)
    have hcond : (epsC[i]?.map fun c => c.ep.Id) = some vc.e.ExtensionPoint := by
      rw [List.getElem?_eq_getElem hi]
      simp [ids _ (List.getElem_mem hi)]
    have hstep : resolveInner vc vref epsC acc i =
        (pubExt (setExtResolved (epAppend acc.1 vc.e.ExtensionPoint i vref) vref)
          vc.e.Id vref, acc.2) := by
      unfold resolveInner
      rw [if_pos hcond]
    rw [hstep]
    have hE : (pubExt (setExtResolved (epAppend acc.1 vc.e.ExtensionPoint i vref) vref)
          vc.e.Id vref).extHeap[vref]? = some { vc with Resolved := true } ∧
        goLookup (pubExt (setExtResolved (epAppend acc.1 vc.e.ExtensionPoint i vref) vref)
          vc.e.Id vref).extensions vc.e.Id = some vref := by
      constructor
      · rw [pubExt_extHeap, setExtResolved_getElem, if_pos rfl, epAppend_extHeap]
        cases hcell with
        | inl h => rw [h]; rfl
        | inr h => rw [h]; rfl
      · rw [goLookup_pubExt, if_pos rfl]
    exact foldl_resolveInner_pres
      (fun s => s.extHeap[vref]? = some { vc with Resolved := true } ∧
        goLookup s.extensions vc.e.Id = some vref) vc vref epsC
      (fun st₂ i2 h₂ =>
        ⟨by rw [pubExt_extHeap, setExtResolved_getElem, if_pos rfl, epAppend_extHeap, h₂.1]; rfl,
         by rw [goLookup_pubExt, if_pos rfl]⟩)
      rest _ hE

/-- Processing the pending extension appends it to the `j`-th extension
point under its key, for every `j`, and the rest of the loop keeps the
membership. -/
theorem inner_establish_memAt (vc : ExtCell) (vref : Nat) (epsC : List EPCell)
    (ids : ∀ c ∈ epsC, c.ep.Id = vc.e.ExtensionPoint) (j : Nat) (hj : j < epsC.length) :
    ∀ acc : EngineState × List Nat, keyLen acc.1 vc.e.ExtensionPoint epsC.length →
    memAt ((List.range epsC.length).foldl (resolveInner vc vref epsC) acc).1
      vc.e.ExtensionPoint j vref := by
  intro acc hkl
  obtain ⟨A, B, hAB⟩ := List.append_of_mem (List.mem_range.mpr hj)
  rw [hAB, List.foldl_append, List.foldl_cons]
  have hklA : keyLen (A.foldl (resolveInner vc vref epsC) acc).1 vc.e.ExtensionPoint
      epsC.length :=
    foldl_resolveInner_pres (fun s => keyLen s vc.e.ExtensionPoint epsC.length) vc vref epsC
      (fun st₂ i h₂ => keyLen_triple _ _ _ _ _ _ _ h₂) A acc hkl
  have hcond : (epsC[j]?.map fun c => c.ep.Id) = some vc.e.ExtensionPoint := by
    rw [List.getElem?_eq_getElem hj]
    simp [ids _ (List.getElem_mem hj)]
  have hstep : resolveInner vc vref epsC (A.foldl (resolveInner vc vref epsC) acc) j =
      (pubExt (setExtResolved (epAppend (A.foldl (resolveInner vc vref epsC) acc).1
        vc.e.ExtensionPoint j vref) vref) vc.e.Id vref,
       (A.foldl (resolveInner vc vref epsC) acc).2) := by
    unfold resolveInner
    rw [if_pos hcond]
  rw [hstep]
  have hmem : memAt (pubExt (setExtResolved (epAppend (A.foldl (resolveInner vc vref epsC) acc).1
      vc.e.ExtensionPoint j vref) vref) vc.e.Id vref) vc.e.ExtensionPoint j vref := by
    obtain ⟨epsX, hX, hlen⟩ := hklA
    unfold memAt
    rw [pubExt_extensionPoints, setExtResolved_extensionPoints, goLookup_epAppend,
      if_pos rfl, hX]
    refine ⟨_, rfl, ?_⟩
    rw [listModify_get?, if_pos rfl]
    have hjX : j < epsX.length := hlen ▸ hj
    rw [List.getElem?_eq_getElem hjX]
    exact ⟨_, rfl, List.mem_append_right _ (by simp)⟩
  exact foldl_resolveInner_pres (fun s => memAt s vc.e.ExtensionPoint j vref) vc vref epsC
    (fun st₂ i2 h₂ => memAt_triple _ _ _ _ _ _ _ _ h₂) B _ hmem

/-- The outer iteration that processes the pending extension itself turns a
pre-phase state into a post-phase state. -/
theorem establish_step (st : EngineState) (vref : Nat) (vc : ExtCell) (n : Nat)
    (hres : vc.Resolved = false) (hn : 0 < n) (st₂ : EngineState) (lo₂ : List Nat)
    (hpre : prePhase st vref vc n st₂) :
    postPhase st vref vc n ((resolveStep (st₂, lo₂) vref).1) := by
  obtain ⟨hinv₂, hframe₂, hcell₂, epsC, hlookC, hlenC⟩ := hpre
  have ids : ∀ c ∈ epsC, c.ep.Id = vc.e.ExtensionPoint :=
    epKeyInv_lookup st₂ _ epsC hinv₂ hlookC
  unfold resolveStep
  cases hv : st₂.extHeap[vref]? with
  | none => rw [hv] at hcell₂; exact absurd hcell₂ (by simp)
  | some vcx =>
    rw [hv] at hcell₂
    injection hcell₂ with hvx
    subst hvx
    show postPhase st vref vcx n
      ((if vcx.Resolved = true then ((st₂, lo₂) : EngineState × List Nat)
        else match goLookup st₂.extensionPoints vcx.e.ExtensionPoint with
          | none => (st₂, lo₂)
          | some eps' =>
            if eps'.length = 0 then (st₂, lo₂)
            else (List.range eps'.length).foldl (resolveInner vcx vref eps') (st₂, lo₂)).1)
    rw [hres, hlookC]
    show postPhase st vref vcx n
      ((if epsC.length = 0 then ((st₂, lo₂) : EngineState × List Nat)
        else (List.range epsC.length).foldl (resolveInner vcx vref epsC) (st₂, lo₂)).1)
    rw [if_neg (by rw [hlenC]; omega)]
    have hif : epKeyInvB ((List.range epsC.length).foldl (resolveInner vcx vref epsC)
        (st₂, lo₂)).1 = true ∧ framePres st ((List.range epsC.length).foldl
        (resolveInner vcx vref epsC) (st₂, lo₂)).1 :=
      foldl_resolveInner_pres (fun s => epKeyInvB s = true ∧ framePres st s) vcx vref epsC
        (fun st₃ i h₃ => ⟨epKeyInvB_triple _ _ _ _ _ h₃.1, framePres_triple _ _ _ _ _ _ h₃.2⟩)
        _ _ ⟨hinv₂, hframe₂⟩
    have hkl : keyLen ((List.range epsC.length).foldl (resolveInner vcx vref epsC)
        (st₂, lo₂)).1 vcx.e.ExtensionPoint n :=
      foldl_resolveInner_pres (fun s => keyLen s vcx.e.ExtensionPoint n) vcx vref epsC
        (fun st₃ i h₃ => keyLen_triple _ _ _ _ _ _ _ h₃) _ _ ⟨epsC, hlookC, hlenC⟩
    have hcp := inner_establish_cellpub vcx vref epsC ids (List.range epsC.length)
      (fun i hi => List.mem_range.mp hi)
      (by rw [ne_eq, List.range_eq_nil]; rw [hlenC]; omega)
      (st₂, lo₂) (Or.inl hv)
    refine ⟨hif.1, hif.2, hcp.1, hkl, fun j hj => ?_, hcp.2⟩
    exact inner_establish_memAt vcx vref epsC ids j (by rw [hlenC]; omega)
      (st₂, lo₂) ⟨epsC, hlookC, rfl⟩

/-- Outer iterations over other pending extensions preserve the pre/post
phases; the iteration for the tracked extension itself establishes or keeps
the post phase. -/
theorem qPhase_step (st : EngineState) (vref : Nat) (vc : ExtCell) (n : Nat)
    (hres : vc.Resolved = false) (hn : 0 < n)
    (huniq : ∀ w ∈ st.unresolved, w ≠ vref → ∀ wc, st.extHeap[w]? = some wc →
      wc.e.Id ≠ vc.e.Id)
    (w : Nat) (hwmem : w ∈ st.unresolved) (st₂ : EngineState) (lo₂ : List Nat)
    (h : prePhase st vref vc n st₂ ∨ postPhase st vref vc n st₂) :
    prePhase st vref vc n ((resolveStep (st₂, lo₂) w).1) ∨
    postPhase st vref vc n ((resolveStep (st₂, lo₂) w).1) := by
  by_cases hw : w = vref
  · subst hw
    cases h with
    | inl hp => exact Or.inr (establish_step st w vc n hres hn st₂ lo₂ hp)
    | inr hp =>
      rw [resolveStep_skip st₂ lo₂ w _ hp.2.2.1 rfl]
      exact Or.inr hp
  · refine resolveStep_pres
      (fun s => prePhase st vref vc n s ∨ postPhase st vref vc n s) w ?_ st₂ lo₂ h
    intro st₂' vc' hv' hr' h₂' st₃ i h₃
    have hframe₂' : framePres st st₂' := by
      cases h₂' with
      | inl hp => exact hp.2.1
      | inr hp => exact hp.2.1
    obtain ⟨wc₀, hwc₀, hwc₀e⟩ := framePres_origCell st st₂' hframe₂' w vc' hv'
    have hid : vc'.e.Id ≠ vc.e.Id := by
      rw [← hwc₀e]
      exact huniq w hwmem hw wc₀ hwc₀
    cases h₃ with
    | inl hp => exact Or.inl (prePhase_triple st vref vc n _ _ i w hw st₃ hp)
    | inr hp => exact Or.inr (postPhase_triple st vref vc n _ _ i w hw hid st₃ hp)

theorem qPhase_fold (st : EngineState) (vref : Nat) (vc : ExtCell) (n : Nat)
    (hres : vc.Resolved = false) (hn : 0 < n)
    (huniq : ∀ w ∈ st.unresolved, w ≠ vref → ∀ wc, st.extHeap[w]? = some wc →
      wc.e.Id ≠ vc.e.Id) :
    ∀ (l : List Nat), (∀ w ∈ l, w ∈ st.unresolved) →
    ∀ (st₂ : EngineState) (lo₂ : List Nat),
      (prePhase st vref vc n st₂ ∨ postPhase st vref vc n st₂) →
      (prePhase st vref vc n ((l.foldl resolveStep (st₂, lo₂)).1) ∨
       postPhase st vref vc n ((l.foldl resolveStep (st₂, lo₂)).1)) := by
  intro l
  induction l with
  | nil => intro _ st₂ lo₂ h; exact h
  | cons w rest ih =>
    intro hl st₂ lo₂ h
    rw [List.foldl_cons, ← Prod.mk.eta (p := resolveStep (st₂, lo₂) w)]
    exact ih (fun x hx => hl x (List.mem_cons_of_mem _ hx)) _ _
      (qPhase_step st vref vc n hres hn huniq w (hl w (List.mem_cons_self _ _)) st₂ lo₂ h)

/-- The outer iteration that reaches the tracked pending extension leaves a
post-phase state, whether it was still pending or already processed. -/
theorem vrefStep_post (st : EngineState) (vref : Nat) (vc : ExtCell) (n : Nat)
    (hres : vc.Resolved = false) (hn : 0 < n) (st₂ : EngineState) (lo₂ : List Nat)
    (h : prePhase st vref vc n st₂ ∨ postPhase st vref vc n st₂) :
    postPhase st vref vc n ((resolveStep (st₂, lo₂) vref).1) := by
  cases h with
  | inl hp => exact establish_step st vref vc n hres hn st₂ lo₂ hp
  | inr hp =>
    rw [resolveStep_skip st₂ lo₂ vref _ hp.2.2.1 rfl]
    exact hp

theorem postPhase_fold (st : EngineState) (vref : Nat) (vc : ExtCell) (n : Nat)
    (huniq : ∀ w ∈ st.unresolved, w ≠ vref → ∀ wc, st.extHeap[w]? = some wc →
      wc.e.Id ≠ vc.e.Id) :
    ∀ (l : List Nat), (∀ w ∈ l, w ∈ st.unresolved) →
    ∀ (st₂ : EngineState) (lo₂ : List Nat), postPhase st vref vc n st₂ →
      postPhase st vref vc n ((l.foldl resolveStep (st₂, lo₂)).1) := by
  intro l
  induction l with
  | nil => intro _ st₂ lo₂ h; exact h
  | cons w rest ih =>
    intro hl st₂ lo₂ h
    rw [List.foldl_cons, ← Prod.mk.eta (p := resolveStep (st₂, lo₂) w)]
    refine ih (fun x hx => hl x (List.mem_cons_of_mem _ hx)) _ _ ?_
    refine resolveStep_pres (fun s => postPhase st vref vc n s) w ?_ st₂ lo₂ h
    intro st₂' vc' hv' hr' h₂' st₃ i h₃
    by_cases hw : w = vref
    · subst hw
      rw [h₂'.2.2.1] at hv'
      injection hv' with hv'
      rw [← hv'] at hr'
      simp at hr'
    · obtain ⟨wc₀, hwc₀, hwc₀e⟩ := framePres_origCell st st₂' h₂'.2.1 w vc' hv'
      have hid : vc'.e.Id ≠ vc.e.Id := by
        rw [← hwc₀e]
        exact huniq w (hl w (List.mem_cons_self _ _)) hw wc₀ hwc₀
      exact postPhase_triple st vref vc n _ _ i w hw hid st₃ h₃

/-! ## Lemmas about `splitOnSep` and the semver validator -/

theorem splitOnSep_ne_nil (sep : Char) (l : List Char) : splitOnSep sep l ≠ [] := by
  cases l with
  | nil => simp [splitOnSep]
  | cons c rest =>
    by_cases hc : c = sep
    · simp [splitOnSep, hc]
    · simp only [splitOnSep, if_neg hc]
      cases splitOnSep sep rest <;> simp

theorem length_splitOnSep (sep : Char) (l : List Char) :
    (splitOnSep sep l).length = l.count sep + 1 := by
  induction l with
  | nil => simp [splitOnSep]
  | cons c rest ih =>
    by_cases hc : c = sep
    · subst hc
      simp [splitOnSep, List.count_cons, ih]
    · simp only [splitOnSep, if_neg hc]
      cases hs : splitOnSep sep rest with
      | nil => exact absurd hs (splitOnSep_ne_nil sep rest)
      | cons p ps =>
        rw [hs] at ih
        simp only [List.length_cons] at ih ⊢
        simp [List.count_cons, hc]
        omega

theorem mem_of_mem_splitOnSep (sep : Char) (l : List Char) :
    ∀ p ∈ splitOnSep sep l, ∀ c ∈ p, c ∈ l := by
  induction l with
  | nil =>
    intro p hp c hc
    simp [splitOnSep] at hp
    subst hp
    simp at hc
  | cons a rest ih =>
    intro p hp c hc
    by_cases ha : a = sep
    · rw [splitOnSep, if_pos ha] at hp
      cases hp with
      | head => simp at hc
      | tail _ hp' => exact List.mem_cons_of_mem _ (ih p hp' c hc)
    · rw [splitOnSep, if_neg ha] at hp
      cases hs : splitOnSep sep rest with
      | nil => exact absurd hs (splitOnSep_ne_nil sep rest)
      | cons q qs =>
        rw [hs] at hp
        cases hp with
        | head =>
          cases hc with
          | head => exact List.mem_cons_self _ _
          | tail _ hc' =>
            exact List.mem_cons_of_mem _ (ih q (hs ▸ List.mem_cons_self _ _) c hc')
        | tail _ hp' =>
          exact List.mem_cons_of_mem _
            (ih p (hs ▸ List.mem_cons_of_mem _ hp') c hc)

theorem goIsDigit_ascii (c : Char) (h : c.toNat < 128) :
    goIsDigit c = decide ('0' ≤ c ∧ c ≤ '9') := by
  unfold goIsDigit
  rw [if_pos (by omega)]

/-- On an ASCII component, `isValidNumber` coincides with the claim's
per-component rule. -/
theorem isValidNumber_ascii (p : List Char) (h : ∀ c ∈ p, c.toNat < 128) :
    isValidNumber p =
      (decide (p ≠ []) && decide (p.head? ≠ some '-') &&
        p.all fun c => decide ('0' ≤ c ∧ c ≤ '9')) := by
  have hall : p.all goIsDigit = p.all fun c => decide ('0' ≤ c ∧ c ≤ '9') := by
    induction p with
    | nil => rfl
    | cons a rest ih =>
      simp only [List.all_cons]
      rw [goIsDigit_ascii a (h a (List.mem_cons_self _ _)),
        ih fun c hc => h c (List.mem_cons_of_mem _ hc)]
  unfold isValidNumber
  by_cases hp : p.length = 0
  · have : p = [] := List.length_eq_zero.mp hp
    subst this
    simp
  · rw [if_neg hp]
    have hpne : p ≠ [] := fun hh => hp (by simp [hh])
    by_cases hd : p.head? = some '-'
    · rw [if_pos hd]
      simp [hd]
    · rw [if_neg hd]
      simp only [decide_eq_true hpne, decide_eq_true hd, Bool.true_and]
      exact hall

/-! ## Lemmas about path cleaning and lowercasing -/

theorem splitOnSep_of_not_mem (sep : Char) (x : List Char) (h : sep ∉ x) :
    splitOnSep sep x = [x] := by
  induction x with
  | nil => rfl
  | cons c rest ih =>
    have hc : ¬ c = sep := fun hh => h (hh ▸ List.mem_cons_self _ _)
    rw [splitOnSep, if_neg hc, ih fun hh => h (List.mem_cons_of_mem _ hh)]

theorem splitOnSep_append_plain (sep : Char) (a x : List Char) (hx : sep ∉ x) :
    splitOnSep sep (a ++ sep :: x) = splitOnSep sep a ++ [x] := by
  induction a with
  | nil =>
    show splitOnSep sep (sep :: x) = [[]] ++ [x]
    rw [splitOnSep, if_pos rfl, splitOnSep_of_not_mem sep x hx]
    rfl
  | cons c a' ih =>
    show splitOnSep sep (c :: (a' ++ sep :: x)) = splitOnSep sep (c :: a') ++ [x]
    by_cases hc : c = sep
    · rw [splitOnSep, if_pos hc, splitOnSep, if_pos hc, ih]
      rfl
    · rw [splitOnSep, if_neg hc, splitOnSep, if_neg hc, ih]
      cases hs : splitOnSep sep a' with
      | nil => exact absurd hs (splitOnSep_ne_nil sep a')
      | cons p ps => rfl

theorem cleanStack_append (r : Bool) (A B : List (List Char)) (s : List (List Char)) :
    cleanStack r s (A ++ B) = cleanStack r (cleanStack r s A) B := by
  unfold cleanStack
  exact List.foldl_append _ _ _ _

theorem joinComps_append_last (ys : List (List Char)) (x : List Char) :
    joinComps (ys ++ [x]) = if ys = [] then x else joinComps ys ++ '/' :: x := by
  induction ys with
  | nil => rfl
  | cons y ys' ih =>
    cases ys' with
    | nil => rfl
    | cons z zs =>
      have ih' : joinComps (z :: (zs ++ [x])) = joinComps (z :: zs) ++ '/' :: x := by
        rw [← List.cons_append, ih, if_neg (by simp)]
      show y ++ '/' :: joinComps (z :: (zs ++ [x])) =
        (y ++ '/' :: joinComps (z :: zs)) ++ '/' :: x
      rw [ih']
      simp

theorem toNat_goToLowerChar_of_upper (c : Char) (h1 : 'A' ≤ c) (h2 : c ≤ 'Z') :
    (goToLowerChar c).toNat = c.toNat + 32 := by
  have hn1 : 65 ≤ c.toNat := h1
  have hn2 : c.toNat ≤ 90 := h2
  unfold goToLowerChar
  rw [if_pos ⟨h1, h2⟩]
  have hv : (c.toNat + 32).isValidChar := Or.inl (by omega)
  rw [Char.ofNat, dif_pos hv]
  rfl

theorem goToLowerChar_ne_of_upper (c : Char) (h1 : 'A' ≤ c) (h2 : c ≤ 'Z') :
    goToLowerChar c ≠ c := by
  intro he
  have h := congrArg Char.toNat he
  rw [toNat_goToLowerChar_of_upper c h1 h2] at h
  omega

theorem goToLowerChar_plain (c : Char) (h : ¬ c = '/' ∧ ¬ c = '.') :
    ¬ goToLowerChar c = '/' ∧ ¬ goToLowerChar c = '.' := by
  by_cases hu : 'A' ≤ c ∧ c ≤ 'Z'
  · have ht := toNat_goToLowerChar_of_upper c hu.1 hu.2
    have hn1 : 65 ≤ c.toNat := hu.1
    constructor
    · intro he
      rw [he] at ht
      have : ('/').toNat = 47 := rfl
      omega
    · intro he
      rw [he] at ht
      have : ('.').toNat = 46 := rfl
      omega
  · unfold goToLowerChar
    rw [if_neg hu]
    exact h

theorem map_goToLowerChar_ne (l : List Char) (h : ∃ c ∈ l, 'A' ≤ c ∧ c ≤ 'Z') :
    l.map goToLowerChar ≠ l := by
  obtain ⟨c, hc, h1, h2⟩ := h
  induction l with
  | nil => simp at hc
  | cons a rest ih =>
    intro he
    rw [List.map_cons, List.cons_eq_cons] at he
    cases hc with
    | head => exact goToLowerChar_ne_of_upper _ h1 h2 he.1
    | tail _ hc' => exact ih hc' he.2

/-- Joining a plain (slash- and dot-free, non-empty) final component onto
any non-empty path and cleaning yields the cleaned prefix followed by the
component verbatim. -/
theorem goCleanL_append_plain (w x : List Char) (hw : w ≠ []) (hx : x ≠ [])
    (hxs : '/' ∉ x) (hxd : '.' ∉ x) :
    goCleanL (w ++ '/' :: x) = cleanPrefix w ++ x := by
  have hne : ¬ w ++ '/' :: x = [] := by simp
  have hhead : (w ++ '/' :: x).head? = w.head? := by
    cases w with
    | nil => exact absurd rfl hw
    | cons a w' => rfl
  have hx1 : ¬ (x = [] ∨ x = ['.']) := by
    rintro (h | h)
    · exact hx h
    · exact hxd (by rw [h]; exact List.mem_cons_self _ _)
  have hx2 : ¬ x = ['.', '.'] := fun h => hxd (by rw [h]; exact List.mem_cons_self _ _)
  have hstep : ∀ (r : Bool) (S : List (List Char)), cleanStack r S [x] = x :: S := by
    intro r S
    show cleanStackStep r S x = x :: S
    unfold cleanStackStep
    rw [if_neg hx1, if_neg hx2]
  unfold goCleanL
  rw [if_neg hne, hhead, splitOnSep_append_plain '/' w x hxs, cleanStack_append, hstep,
    List.reverse_cons]
  unfold renderClean cleanPrefix
  cases hr : decide (w.head? = some '/') with
  | true =>
    rw [if_pos rfl, if_pos rfl, joinComps_append_last]
    by_cases hS : (cleanStack true [] (splitOnSep '/' w)).reverse = []
    · rw [if_pos hS, if_pos hS]
      rfl
    · rw [if_neg hS, if_neg hS]
      simp
  | false =>
    show (if (cleanStack false [] (splitOnSep '/' w)).reverse ++ [x] = [] then ['.']
        else joinComps ((cleanStack false [] (splitOnSep '/' w)).reverse ++ [x])) =
      (if (cleanStack false [] (splitOnSep '/' w)).reverse = [] then []
        else joinComps ((cleanStack false [] (splitOnSep '/' w)).reverse) ++ ['/']) ++ x
    rw [if_neg (by simp : ¬ (cleanStack false [] (splitOnSep '/' w)).reverse ++ [x] = []),
      joinComps_append_last]
    by_cases hS : (cleanStack false [] (splitOnSep '/' w)).reverse = []
    · rw [if_pos hS, if_pos hS]
      rfl
    · rw [if_neg hS, if_neg hS]
      simp

/-! ## Claims -/

/-- C1: the spec says an extension whose extension point is unknown remains
in `pending` across `resolve()` calls and becomes Resolved once the point is
registered.  The code instead silently drops it: when no list is registered
under `v.ExtensionPoint`, `resolve` never appends `v` to `leftover`, so after
loading `manifestA` the pending list is empty, and registering `ep.x`
afterwards (which re-runs `resolve`) still leaves `e1` unresolved and absent
from the resolved-extensions index, forever. -/
theorem c1_unknown_ep_extension_dropped :
    stOrphan.unresolved = [] ∧
    goLookup stOrphan.extensions "e1" = none ∧
    stOrphan.extHeap[0]?.map (·.Resolved) = some false ∧
    goLookup stLateEP.extensions "e1" = none ∧
    stLateEP.extHeap[0]?.map (·.Resolved) = some false := by
  refine ⟨rfl, rfl, rfl, rfl, rfl⟩

/-- C2: the spec requires a manifest whose `Version` fails the semver rule to
be rejected with the registry unchanged.  The admission path
(`loadPluginManifests` → `addPlugin`) performs no version validation at all:
the manifest with version `"1.0"` is fully admitted into `plugins` even
though `isSemverValid "1.0" = false`. -/
theorem c2_invalid_version_admitted :
    isSemverValid "1.0" = false ∧
    goLookup2 (admitManifest newPluginEngine manifestBadVersion "p.wasm").plugins "p1" "1.0" = some 0 := by
  refine ⟨rfl, rfl⟩

/-- C3: the spec says instantiation failures are captured per plugin and the
engine never panics.  In `instantiate`, a failing `extism.NewPlugin` is only
logged, after which `pluginInstance.Call("start", nil)` dereferences the nil
instance — a runtime panic, not a captured error; `CallExtensionFunc` on an
extension owned by that plugin panics the same way instead of returning an
`InstantiationFailed` error. -/
theorem c3_instantiation_failure_panics :
    instantiate sbFail stOnce 0 = .panicked "nil pointer dereference: pluginInstance.Call" ∧
    CallExtensionFunc sbFail stOnce "e1" [] = .panicked "nil pointer dereference: pluginInstance.Call" := by
  refine ⟨rfl, rfl⟩

/-- C4 counterexample: two extension points registered under the same id
`ep.x`; after `resolve`, the pending extension has been appended to the
`Extensions` list of *both* cells (`[[0], [0]]`), refuting the claim that it
is attached to exactly the first one and no other. -/
theorem c4_counterexample_second_ep_also_attached :
    (goLookup stTwoEPs.extensionPoints "ep.x").map (fun eps => eps.map (·.Extensions)) =
      some [[0], [0]] := by
  rfl

/-- C4 (amended): for every pending unresolved extension whose key has at
least one registered extension point, `resolve()` appends the extension to
the `Extensions` list of *every* extension point registered under that key
(the matching loop has no break), marks its record resolved, and publishes
it into the resolved-extensions index under its id (exactly, when no other
pending extension shares the id).  Stated over any state satisfying the
`extensionPoints` key invariant, which all reachable states do. -/
theorem c4_resolve_attaches_every_matching_ep
    (st : EngineState) (vref : Nat) (vc : ExtCell) (eps : List EPCell)
    (hinv : epKeyInvB st = true)
    (hmem : vref ∈ st.unresolved)
    (hvc : st.extHeap[vref]? = some vc)
    (hres : vc.Resolved = false)
    (heps : goLookup st.extensionPoints vc.e.ExtensionPoint = some eps)
    (hn : 0 < eps.length)
    (huniq : ∀ w ∈ st.unresolved, w ≠ vref → ∀ wc, st.extHeap[w]? = some wc →
      wc.e.Id ≠ vc.e.Id) :
    (∃ eps', goLookup (resolve st).extensionPoints vc.e.ExtensionPoint = some eps' ∧
      eps'.length = eps.length ∧ ∀ c ∈ eps', vref ∈ c.Extensions) ∧
    (resolve st).extHeap[vref]? = some { vc with Resolved := true } ∧
    goLookup (resolve st).extensions vc.e.Id = some vref := by
  have hne : ¬ st.unresolved.length = 0 := by
    have := List.length_pos.mpr (List.ne_nil_of_mem hmem)
    omega
  obtain ⟨l1, l2, hsplit⟩ := List.append_of_mem hmem
  have hsub1 : ∀ x ∈ l1, x ∈ st.unresolved := by
    intro x hx; rw [hsplit]; exact List.mem_append_left _ hx
  have hsub2 : ∀ x ∈ l2, x ∈ st.unresolved := by
    intro x hx; rw [hsplit]; exact List.mem_append_right _ (List.mem_cons_of_mem _ hx)
  have hpost : postPhase st vref vc eps.length
      ((st.unresolved.foldl resolveStep (st, [])).1) := by
    rw [hsplit, List.foldl_append, List.foldl_cons]
    have h1 := qPhase_fold st vref vc eps.length hres hn huniq l1 hsub1 st []
      (Or.inl ⟨hinv, framePres_refl st, hvc, eps, heps, rfl⟩)
    rw [← Prod.mk.eta (p := l1.foldl resolveStep (st, []))]
    have h2 := vrefStep_post st vref vc eps.length hres hn
      (l1.foldl resolveStep (st, [])).1 (l1.foldl resolveStep (st, [])).2 h1
    rw [← Prod.mk.eta (p := resolveStep ((l1.foldl resolveStep (st, [])).1,
      (l1.foldl resolveStep (st, [])).2) vref)]
    exact postPhase_fold st vref vc eps.length huniq l2 hsub2 _ _ h2
  have hrw : resolve st = { (st.unresolved.foldl resolveStep (st, [])).1 with
      unresolved := (st.unresolved.foldl resolveStep (st, [])).2 } := by
    unfold resolve
    rw [if_neg hne]
  obtain ⟨_, _, hcell, ⟨epsF, hlook, hlen⟩, hmemAll, hpub⟩ := hpost
  refine ⟨⟨epsF, by rw [hrw]; exact hlook, hlen, ?_⟩, by rw [hrw]; exact hcell,
    by rw [hrw]; exact hpub⟩
  intro c hc
  obtain ⟨j, hj, hcj⟩ := List.mem_iff_getElem.mp hc
  obtain ⟨epsX, hX, cx, hcx, hmx⟩ := hmemAll j (hlen ▸ hj)
  rw [hlook] at hX
  injection hX with hX
  subst hX
  rw [List.getElem?_eq_getElem hj] at hcx
  injection hcx with hcx
  have hceq : cx = c := by rw [← hcx, hcj]
  rw [← hceq]
  exact hmx

/-- C4 witness: in the concrete state `stC4` (pending `e1`, two extension
points under `ep.x`), the amended theorem applies: both cells receive the
extension, the record is resolved, and `e1` is published. -/
theorem c4_witness :
    (∃ eps', goLookup (resolve stC4).extensionPoints "ep.x" = some eps' ∧
      eps'.length = 2 ∧ ∀ c ∈ eps', 0 ∈ c.Extensions) ∧
    (resolve stC4).extHeap[0]? = some { cellE1 with Resolved := true } ∧
    goLookup (resolve stC4).extensions "e1" = some 0 :=
  c4_resolve_attaches_every_matching_ep stC4 0 cellE1 [epX1, epX2] rfl
    (by decide) rfl rfl rfl (by decide)
    (fun w hw hne _ _ => absurd (List.mem_singleton.mp hw) hne)

/-- C5: `resolve()` is idempotent.  For every registry state satisfying the
`extensionPoints` key invariant — which holds in every reachable state,
since both registration paths file cells under their own `ep.Id` — running
`resolve` twice yields exactly the same state (all indices included) as
running it once: the first run always empties `unresolved`, so the second
run is the identity. -/
theorem c5_resolve_idempotent (st : EngineState) (h : epKeyInvB st = true) :
    resolve (resolve st) = resolve st := by
  by_cases h0 : st.unresolved.length = 0
  · simp [resolve, h0]
  · have hfold := resolve_fold_inv st.unresolved st [] h
    have hres : resolve st =
        { (st.unresolved.foldl resolveStep (st, [])).1 with unresolved := [] } := by
      simp only [resolve, h0, if_false]
      rw [hfold.1]
    rw [hres]
    simp [resolve]

/-- C5 witness: the invariant holds for the concrete state `stOnce` and the
idempotence theorem applies to it. -/
theorem c5_witness :
    epKeyInvB stOnce = true ∧ resolve (resolve stOnce) = resolve stOnce :=
  ⟨rfl, c5_resolve_idempotent stOnce rfl⟩

/-- C6: for a resolved extension whose owner plugin has no live instance,
`CallExtensionFunc` first instantiates the owner (the fresh sandbox instance
is stored in the owner's `Plugin` field), then invokes the extension's
`FuncName` export with the payload, and returns that export's response bytes
with a nil error. -/
theorem c6_lazy_instantiation_call (sb : Sandbox) (st : EngineState) (id : String)
    (data : List Nat) (pref eref inst : Nat) (pc : PluginVal) (ec : ExtCell) (d : List Nat)
    (hcall : goLookup st.callableExtensions id = some pref)
    (hpc : st.plugHeap[pref]? = some pc)
    (hnotinst : pc.PluginInst = none)
    (hext : goLookup st.extensions id = some eref)
    (hec : st.extHeap[eref]? = some ec)
    (hnew : sb.newPlugin pc.PathToModule = some inst)
    (hfunc : sb.call inst ec.e.FuncName data = .ok d) :
    CallExtensionFunc sb st id data =
      .ok ({ st with plugHeap := listModify st.plugHeap pref fun c => { c with PluginInst := some inst } },
        some d, none) := by
  simp [CallExtensionFunc, hcall, hpc, hnotinst, instantiate, hnew, hext, hec,
    listModify_get?, hfunc]

/-- C6 witness: on the engine that has loaded `manifestP` (extension `e1`
resolved, owner not instantiated) and the always-succeeding sandbox, the
call instantiates instance 7 and returns the export's bytes. -/
theorem c6_witness :
    CallExtensionFunc sbOk stOnce "e1" [1, 2] =
      .ok ({ stOnce with plugHeap := listModify stOnce.plugHeap 0 fun c => { c with PluginInst := some 7 } },
        some [1, 2, 4], none) := by
  exact c6_lazy_instantiation_call sbOk stOnce "e1" [1, 2] 0 0 7
    { PluginInst := none, PathToModule := "a.wasm", Resolved := false, LoadOnStart := false }
    { e := { Id := "e1", ExtensionPoint := "ep.x", Name := "E1", Description := "", FuncName := "draw" }
      Plugin := { PluginInst := none, PathToModule := "a.wasm", Resolved := false, LoadOnStart := false }
      Resolved := true }
    [1, 2, 4] rfl rfl rfl rfl rfl rfl rfl

/-- C7: the spec says an unknown or unresolved extension id surfaces as a
synchronous error from `CallExtensionFunc`.  The code instead returns
`(nil, nil)` — a successful nil result — when the id is not in
`callableExtensions`, and dereferences the nil `e.extensions` entry
(`extension.Func`) — a panic, not an error — when the id is callable but
unresolved (as `e1` is in `stOrphan`, where `resolve` dropped it). -/
theorem c7_unknown_or_unresolved_no_error :
    CallExtensionFunc sbOk newPluginEngine "ghost" [] = .ok (newPluginEngine, none, none) ∧
    CallExtensionFunc sbOk stOrphan "e1" [] = .panicked "nil pointer dereference: extension.Func" := by
  refine ⟨rfl, rfl⟩

/-- C8: the spec says a second plugin with the same `(Id, Version)` replaces
the first and the first's extensions are dropped from the indices.  The code
replaces the plugin record (`plugins["p"]["1.1.1"]` is the new heap cell 1)
but `addPlugin` deliberately refuses to overwrite `callableExtensions`, so
the call index still maps `e1` to the replaced first plugin (heap cell 0,
path `a.wasm`), while the resolved map was overwritten to the new cell --
the two indices disagree about the owner and the first plugin's entry was
never dropped. -/
theorem c8_replacement_keeps_stale_owner :
    goLookup2 stTwice.plugins "p" "1.1.1" = some 1 ∧
    goLookup stTwice.callableExtensions "e1" = some 0 ∧
    stTwice.plugHeap[0]?.map (·.PathToModule) = some "a.wasm" ∧
    stTwice.plugHeap[1]?.map (·.PathToModule) = some "b.wasm" := by
  refine ⟨rfl, rfl, rfl, rfl⟩

/-- C9 counterexample: the semver validator accepts `"1.2.٣"` whose third
component is the Arabic-Indic digit U+0663 — not an ASCII digit `0`-`9` —
because `isValidNumber` uses `unicode.IsDigit`, which accepts every Unicode
decimal digit; the claimed ASCII-only characterization is therefore false. -/
theorem c9_counterexample_unicode_digit :
    isSemverValid "1.2.٣" = true ∧ semverClaimedRule "1.2.٣" = false ∧
      ('٣'.toNat = 0x663 ∧ ¬ ('0' ≤ '٣' ∧ '٣' ≤ '9')) := by
  refine ⟨rfl, rfl, rfl, by decide⟩

/-- Helper: `List.all` respects pointwise-equal predicates. -/
theorem all_congr_mem {α : Type} (l : List α) (f g : α → Bool)
    (h : ∀ a ∈ l, f a = g a) : l.all f = l.all g := by
  induction l with
  | nil => rfl
  | cons a rest ih =>
    simp only [List.all_cons]
    rw [h a (List.mem_cons_self _ _), ih fun x hx => h x (List.mem_cons_of_mem _ hx)]

/-- C9 (amended): on ASCII strings the validator coincides exactly with the
claimed rule (two dots, three components, non-empty, no leading `'-'`,
digits `0`-`9`, no length cap); on non-ASCII strings it is more liberal,
accepting any Unicode decimal digit. -/
theorem c9_semver_ascii_characterization (s : String)
    (h : ∀ c ∈ s.data, c.toNat < 128) :
    isSemverValid s = semverClaimedRule s := by
  unfold isSemverValid semverClaimedRule
  show (if (splitOnSep '.' s.data).length ≠ 3 then false
      else (splitOnSep '.' s.data).all isValidNumber) =
    (decide (s.data.count '.' = 2) &&
      (splitOnSep '.' s.data).all fun p =>
        decide (p ≠ []) && decide (p.head? ≠ some '-') &&
          p.all fun c => decide ('0' ≤ c ∧ c ≤ '9'))
  have hlen := length_splitOnSep '.' s.data
  by_cases h3 : (splitOnSep '.' s.data).length = 3
  · have hc2 : s.data.count '.' = 2 := by omega
    rw [if_neg (fun hh => hh h3)]
    simp only [hc2, decide_True, Bool.true_and]
    exact all_congr_mem _ _ _ fun p hp =>
      isValidNumber_ascii p fun c hc => h c (mem_of_mem_splitOnSep '.' s.data p hp c hc)
  · rw [if_pos h3]
    have hcne : ¬ s.data.count '.' = 2 := by omega
    simp [hcne]

/-- C9 witness: the amended characterization applied to the ASCII string
`"1.2.3"`. -/
theorem c9_witness :
    (∀ c ∈ "1.2.3".data, c.toNat < 128) ∧
      isSemverValid "1.2.3" = semverClaimedRule "1.2.3" :=
  ⟨by decide, c9_semver_ascii_characterization "1.2.3" (by decide)⟩

/-- C10 (amended): `Load` scans `Join(cwd, ToLower(path))`, so (i) two
paths differing only in letter case are treated as the same location, and
(ii) for a path that is one plain component (no `'/'` or `'.'`) containing
an uppercase letter, the scanned directory is *not* the one the caller
literally supplied on a case-sensitive filesystem.  (The original "never"
over all uppercase-containing paths fails: cleaning can cancel the
uppercase component, see the counterexample.) -/
theorem c10_lowercase_join :
    (∀ cwd p1 p2 : String, goToLower p1 = goToLower p2 →
      loadScanPath cwd p1 = loadScanPath cwd p2) ∧
    (∀ cwd q : String, cwd ≠ "" →
      goHasPrefixL (goToLower q).data ("http".data) = false →
      (∀ c ∈ q.data, ¬ c = '/' ∧ ¬ c = '.') →
      (∃ c ∈ q.data, 'A' ≤ c ∧ c ≤ 'Z') →
      loadScanPath cwd q ≠ some (goJoin cwd q)) := by
  constructor
  · intro cwd p1 p2 h
    unfold loadScanPath
    rw [h]
  · intro cwd q hcwd hpre hplain hupper
    show (if goHasPrefixL (goToLower q).data "http".data = true then none
        else some (goJoin cwd (goToLower q))) ≠ some (goJoin cwd q)
    rw [hpre, if_neg (by simp : ¬ (false = true))]
    intro heq
    simp only [Option.some.injEq] at heq
    have hdata : goJoinL cwd.data (goToLower q).data = goJoinL cwd.data q.data :=
      congrArg String.data heq
    have hcd : cwd.data ≠ [] := by
      intro hh
      exact hcwd (String.ext hh)
    obtain ⟨cu, hcu, hcu1, hcu2⟩ := hupper
    have hx : q.data ≠ [] := List.ne_nil_of_mem hcu
    have hxs : '/' ∉ q.data := fun hin => (hplain _ hin).1 rfl
    have hxd : '.' ∉ q.data := fun hin => (hplain _ hin).2 rfl
    have hlx : (goToLower q).data = q.data.map goToLowerChar := rfl
    have hlxne : q.data.map goToLowerChar ≠ [] := by
      intro hh
      rw [List.map_eq_nil_iff] at hh
      exact hx hh
    have hlxs : '/' ∉ q.data.map goToLowerChar := by
      intro hin
      obtain ⟨c, hc, hcl⟩ := List.mem_map.mp hin
      exact (goToLowerChar_plain c (hplain c hc)).1 hcl
    have hlxd : '.' ∉ q.data.map goToLowerChar := by
      intro hin
      obtain ⟨c, hc, hcl⟩ := List.mem_map.mp hin
      exact (goToLowerChar_plain c (hplain c hc)).2 hcl
    rw [hlx] at hdata
    unfold goJoinL at hdata
    rw [if_neg hcd, if_neg hcd,
      goCleanL_append_plain cwd.data (q.data.map goToLowerChar) hcd hlxne hlxs hlxd,
      goCleanL_append_plain cwd.data q.data hcd hx hxs hxd] at hdata
    exact map_goToLowerChar_ne q.data ⟨cu, hcu, hcu1, hcu2⟩
      (List.append_cancel_left hdata)

/-- C10 witness: the amended claim applied to concrete paths: `"Abc"` and
`"aBC"` scan the same directory under `"/w"`, while `"Plugins"` does not
scan the literally-supplied `"/w/Plugins"`. -/
theorem c10_witness :
    loadScanPath "/w" "Abc" = loadScanPath "/w" "aBC" ∧
    loadScanPath "/w" "Plugins" ≠ some (goJoin "/w" "Plugins") :=
  ⟨c10_lowercase_join.1 "/w" "Abc" "aBC" rfl,
   c10_lowercase_join.2 "/w" "Plugins" (by decide) rfl (by decide) (by decide)⟩

/-- C10 counterexample: for the path `"A/.."` — which contains an uppercase
letter — the directory `Load` scans, `Join(cwd, ToLower path)`, is exactly
the directory the literal path refers to (`Join(cwd, path)`), because the
uppercase component is eliminated by `..` during path cleaning; this refutes
"never refers to the directory the caller literally supplied". -/
theorem c10_counterexample_dotdot_path :
    loadScanPath "/w" "A/.." = some (goJoin "/w" "A/..") ∧
    goJoin "/w" "A/.." = "/w" ∧
    ("A/..".data.any fun c => decide ('A' ≤ c ∧ c ≤ 'Z')) = true := by
  refine ⟨rfl, rfl, rfl⟩

end PluginEngine
